import Mathlib

/-!
Verification of the fm-prime repository against its specification.

The JavaScript code represents arbitrary-precision non-negative integers as
canonical decimal strings.  The embedding below works over `ℕ`, which is in
bijection with canonical decimal strings; digit-level operations
(`isDivisibleBy2`, `isDivisibleBy3`, ...) are translated via `Nat.digits`,
and loops are translated as fuelled structural recursions (each definition
supplies fuel that provably exceeds the iteration count of the JS loop).
-/

namespace FMPrime

/-! ## Math operations
(src/services/mathOperations.mjs and src/src/services/mathOperations.optimized.mjs) -/

/-- Decimal digits of `n`, least significant first, by fuelled recursion
(`n` itself bounds the number of digits). -/
def decimalDigitsAux : ℕ → ℕ → List ℕ
  | 0, _ => []
  | fuel + 1, n => if n = 0 then [] else n % 10 :: decimalDigitsAux fuel (n / 10)

/-- The decimal digit list of the canonical string of `n`. -/
def decimalDigits (n : ℕ) : List ℕ := decimalDigitsAux n n

theorem decimalDigitsAux_eq_digits :
    ∀ fuel n, n ≤ fuel → decimalDigitsAux fuel n = Nat.digits 10 n := by
  intro fuel
  induction fuel with
  | zero =>
    intro n hn
    have : n = 0 := by omega
    subst this
    simp [decimalDigitsAux]
  | succ fuel ih =>
    intro n hn
    by_cases h0 : n = 0
    · subst h0
      simp [decimalDigitsAux]
    · rw [decimalDigitsAux, if_neg h0,
        Nat.digits_def' (by norm_num : 1 < 10) (by omega : 0 < n),
        ih (n / 10) (by have := Nat.div_lt_self (by omega : 0 < n) (by norm_num : 1 < 10); omega : n / 10 ≤ fuel)]

theorem decimalDigits_eq_digits (n : ℕ) : decimalDigits n = Nat.digits 10 n :=
  decimalDigitsAux_eq_digits n n (le_refl n)

/-- `calculateDigitSum`: the sum of the decimal digits of the number string. -/
def calculateDigitSum (num : ℕ) : ℕ := (decimalDigits num).sum

/-- `isDivisibleBy2`: the last decimal digit (`+num[num.length-1]`) is even.
For the canonical string of `num` the last digit is `num % 10`. -/
def isDivisibleBy2 (num : ℕ) : Bool := num % 10 % 2 == 0

/-- `isDivisibleBy3`: the decimal digit sum is divisible by 3. -/
def isDivisibleBy3 (num : ℕ) : Bool := calculateDigitSum num % 3 == 0

/-- `isDivisibleBy5`: the last decimal digit is `"0"` or `"5"`. -/
def isDivisibleBy5 (num : ℕ) : Bool := num % 10 == 0 || num % 10 == 5

/-- `isDivisibleBy6`: divisible by 2 and by 3. -/
def isDivisibleBy6 (num : ℕ) : Bool := isDivisibleBy2 num && isDivisibleBy3 num

/-- `isDivisibleBy6(subtractNumbers(n, k))` as used in the 6k±1 pattern tests.
When `n < k`, `subtractNumbers` produces a negative string `"-…"`; on it the JS
digit sum is `NaN` (from `+'-'`), so `isDivisibleBy3` — and hence
`isDivisibleBy6` — returns `false`. -/
def isDivisibleBy6Sub (n k : ℕ) : Bool :=
  if k ≤ n then isDivisibleBy6 (n - k) else false

theorem isDivisibleBy2_eq (n : ℕ) : isDivisibleBy2 n = (n % 2 == 0) := by
  unfold isDivisibleBy2
  rw [Nat.mod_mod_of_dvd n (by norm_num : (2 : ℕ) ∣ 10)]

theorem isDivisibleBy3_eq (n : ℕ) : isDivisibleBy3 n = (n % 3 == 0) := by
  unfold isDivisibleBy3 calculateDigitSum
  rw [decimalDigits_eq_digits]
  have h := (Nat.modEq_digits_sum 3 10 (by norm_num) n).symm
  unfold Nat.ModEq at h
  rw [h]

theorem isDivisibleBy5_eq (n : ℕ) : isDivisibleBy5 n = (n % 5 == 0) := by
  unfold isDivisibleBy5
  rw [Bool.eq_iff_iff]
  simp only [Bool.or_eq_true, beq_iff_eq]
  omega

theorem isDivisibleBy6_eq (n : ℕ) : isDivisibleBy6 n = (n % 6 == 0) := by
  unfold isDivisibleBy6
  rw [isDivisibleBy2_eq, isDivisibleBy3_eq, Bool.eq_iff_iff]
  simp only [Bool.and_eq_true, beq_iff_eq]
  omega

/-- `isDivisor` (primeChecker.mjs): `candidate` divides `number` with zero
remainder and differs from it.  (For candidate `"0"` the JS code indexes into
the division-by-zero message string and the comparison is false as well.) -/
def isDivisor (number candidate : ℕ) : Bool :=
  if candidate = 0 then false
  else (number % candidate == 0) && (number != candidate)

/-- Binary-search loop of the original `sqrtFloor` (mathOperations.mjs):
iterates while `low < high`; on `mid² ≤ n` records `ans := mid` and raises
`low`, otherwise lowers `high` to `mid - 1`.  (Note the loop exits as soon as
`low = high`, without testing that point, so the result can be one below the
true integer square root.)  `fuel` dominates `high + 1 - low`, which strictly
decreases at each iteration. -/
def sqrtFloorAux (n : ℕ) : ℕ → ℕ → ℕ → ℕ → ℕ
  | 0, _, _, ans => ans
  | fuel + 1, low, high, ans =>
    if low < high then
      let mid := (low + high) / 2
      if mid * mid ≤ n then sqrtFloorAux n fuel (mid + 1) high mid
      else sqrtFloorAux n fuel low (mid - 1) ans
    else ans

/-- Original `sqrtFloor` (mathOperations.mjs): binary search with
`low = 0`, `high = num`, `ans = 0`. -/
def sqrtFloor (num : ℕ) : ℕ := sqrtFloorAux num (num + 1) 0 num 0

theorem sqrtFloorAux_bounds (n : ℕ) :
    ∀ fuel low high ans, high + 1 - low ≤ fuel →
      ans ≤ Nat.sqrt n → low ≤ ans + 1 → Nat.sqrt n ≤ high →
      sqrtFloorAux n fuel low high ans ≤ Nat.sqrt n ∧
        Nat.sqrt n ≤ sqrtFloorAux n fuel low high ans + 1 := by
  intro fuel
  induction fuel with
  | zero =>
    intro low high ans hf ha hl hh
    simp only [sqrtFloorAux]
    omega
  | succ fuel ih =>
    intro low high ans hf ha hl hh
    simp only [sqrtFloorAux]
    by_cases hlh : low < high
    · simp only [hlh, if_true]
      set mid := (low + high) / 2 with hmid
      by_cases hsq : mid * mid ≤ n
      · simp only [hsq, if_true]
        have hmle : mid ≤ Nat.sqrt n := Nat.le_sqrt.mpr hsq
        exact ih (mid + 1) high mid (by omega) hmle (le_refl _) hh
      · simp only [hsq, if_false]
        have hgt : Nat.sqrt n < mid := by
          rcases Nat.lt_or_ge (Nat.sqrt n) mid with h | h
          · exact h
          · exact absurd (Nat.le_trans (Nat.mul_le_mul h h) (Nat.sqrt_le n)) hsq
        have hmid1 : 1 ≤ mid := by
          rcases Nat.eq_zero_or_pos mid with h0 | h0
          · rw [h0] at hsq; exact absurd (Nat.zero_le n) hsq
          · exact h0
        exact ih low (mid - 1) ans (by omega) ha hl (by omega)
    · simp only [hlh, if_false]
      omega

theorem sqrtFloor_le (n : ℕ) : sqrtFloor n ≤ Nat.sqrt n :=
  (sqrtFloorAux_bounds n (n + 1) 0 n 0 (by omega) (Nat.zero_le _) (by omega)
    (Nat.sqrt_le_self n)).1

theorem sqrt_le_sqrtFloor_succ (n : ℕ) : Nat.sqrt n ≤ sqrtFloor n + 1 :=
  (sqrtFloorAux_bounds n (n + 1) 0 n 0 (by omega) (Nat.zero_le _) (by omega)
    (Nat.sqrt_le_self n)).2

/-- BigInt binary-search loop of the optimized `sqrtFloor`
(mathOperations.optimized.mjs): same search but iterating while `low ≤ high`,
so the final point is always tested. -/
def sqrtFloorOptAux (n : ℕ) : ℕ → ℕ → ℕ → ℕ → ℕ
  | 0, _, _, ans => ans
  | fuel + 1, low, high, ans =>
    if low ≤ high then
      let mid := (low + high) / 2
      if mid * mid ≤ n then sqrtFloorOptAux n fuel (mid + 1) high mid
      else sqrtFloorOptAux n fuel low (mid - 1) ans
    else ans

/-- Optimized `sqrtFloor` (mathOperations.optimized.mjs).  The BigInt branch is
the binary search below; the `num.length < 15` branch
(`Math.floor(Math.sqrt(Number(num)))`) agrees with it on its whole range
because double-precision square root is correctly rounded and
`n < 10^14` keeps the rounding error below the distance to the next integer. -/
def sqrtFloorOpt (num : ℕ) : ℕ := sqrtFloorOptAux num (num + 2) 0 num 0

theorem sqrtFloorOptAux_eq (n : ℕ) :
    ∀ fuel low high ans, high + 2 - low ≤ fuel →
      ans ≤ Nat.sqrt n → (low = ans + 1 ∨ (ans = 0 ∧ low = 0)) →
      Nat.sqrt n ≤ high →
      sqrtFloorOptAux n fuel low high ans = Nat.sqrt n := by
  intro fuel
  induction fuel with
  | zero =>
    intro low high ans hf ha hl hh
    simp only [sqrtFloorOptAux]
    omega
  | succ fuel ih =>
    intro low high ans hf ha hl hh
    simp only [sqrtFloorOptAux]
    by_cases hlh : low ≤ high
    · simp only [hlh, if_true]
      set mid := (low + high) / 2 with hmid
      by_cases hsq : mid * mid ≤ n
      · simp only [hsq, if_true]
        have hmle : mid ≤ Nat.sqrt n := Nat.le_sqrt.mpr hsq
        exact ih (mid + 1) high mid (by omega) hmle (Or.inl rfl) hh
      · simp only [hsq, if_false]
        have hgt : Nat.sqrt n < mid := by
          rcases Nat.lt_or_ge (Nat.sqrt n) mid with h | h
          · exact h
          · exact absurd (Nat.le_trans (Nat.mul_le_mul h h) (Nat.sqrt_le n)) hsq
        have hmid1 : 1 ≤ mid := by
          rcases Nat.eq_zero_or_pos mid with h0 | h0
          · rw [h0] at hsq; exact absurd (Nat.zero_le n) hsq
          · exact h0
        exact ih low (mid - 1) ans (by omega) ha hl (by omega)
    · simp only [hlh, if_false]
      omega

theorem sqrtFloorOpt_eq (n : ℕ) : sqrtFloorOpt n = Nat.sqrt n :=
  sqrtFloorOptAux_eq n (n + 2) 0 n 0 (by omega) (Nat.zero_le _)
    (Or.inr ⟨rfl, rfl⟩) (Nat.sqrt_le_self n)

/-! ## `findNextCandidate` (helper.mjs / helper.optimized.mjs) -/

/-- `findNextCandidate`: map `"2" ↦ "3"`, `"3" ↦ "5"`; otherwise divide by 6 and
advance: remainder 5 → `current + 2`, remainder 1 → `current + 4`, any other
remainder → `6 * (quotient + 1) - 1`. -/
def findNextCandidate (current : ℕ) : ℕ :=
  if current = 2 then 3
  else if current = 3 then 5
  else if current % 6 = 5 then current + 2
  else if current % 6 = 1 then current + 4
  else 6 * (current / 6 + 1) - 1

/-! ## The plain and optimized single-number checkers
(src/services/primeChecker.mjs `isPrime`,
src/src/services/primeChecker.optimized.mjs `isPrimeOptimized`) -/

/-- `isPrime` (primeChecker.mjs) with the default `partition = "1"`:
`partitionRange = remainder(sqrtLimit, 1) + 1 = 1`, so
`generatePartitions(sqrtLimit, 1) = [0, 1, …, sqrtLimit]` and the inner loop
runs for `k ∈ {0, 1}`.  Each step trial-divides by the candidates
`5 + 6(k + partition)` and `5 + 6(k + partition) + 2`; the early
`return false` of the while-loop is the `List.any`. -/
def isPrime (number : ℕ) : Bool :=
  if number = 2 ∨ number = 3 then true
  else if number = 1 ∨ isDivisibleBy2 number ∨ isDivisibleBy3 number ∨
      (!isDivisibleBy6Sub number 7 && !isDivisibleBy6Sub number 5) then false
  else
    !((List.range (sqrtFloor number + 1)).any fun part =>
      (List.range 2).any fun k =>
        isDivisor number (5 + 6 * (k + part)) ||
        isDivisor number (5 + 6 * (k + part) + 2))

/-- Candidate loop of `isPrimeOptimized`: trial-divide by `candidate` while
`candidate ≤ sqrtLimit`, advancing with `findNextCandidate`.  The candidate
strictly increases each step, so `sqrtLimit + 1` fuel suffices from 5. -/
def isPrimeOptimizedLoop (number sqrtLimit : ℕ) : ℕ → ℕ → Bool
  | 0, _ => true
  | fuel + 1, candidate =>
    if candidate ≤ sqrtLimit then
      if isDivisor number candidate then false
      else isPrimeOptimizedLoop number sqrtLimit fuel (findNextCandidate candidate)
    else true

/-- `isPrimeOptimized` (primeChecker.optimized.mjs): same basic filter as
`isPrime`, then trial division by the 6k±1 candidates from 5 up to the
optimized `sqrtFloor`. -/
def isPrimeOptimized (number : ℕ) : Bool :=
  if number = 2 ∨ number = 3 then true
  else if number = 1 ∨ isDivisibleBy2 number ∨ isDivisibleBy3 number ∨
      (!isDivisibleBy6Sub number 7 && !isDivisibleBy6Sub number 5) then false
  else
    isPrimeOptimizedLoop number (sqrtFloorOpt number) (sqrtFloorOpt number + 1) 5

/-- Exhaustive trial division over `[2, ⌊√n⌋]`, as the specification words it.
This is the spec-side comparator for the refinement claim C1. -/
def trialDivisionIsPrime (n : ℕ) : Bool :=
  decide (∀ d ≤ Nat.sqrt n, 2 ≤ d → ¬ d ∣ n)

theorem not_prime_of_proper_divisor {n d : ℕ} (hd2 : 2 ≤ d) (hdn : d ≠ n)
    (hdvd : d ∣ n) : ¬ Nat.Prime n := by
  intro hp
  rcases hp.eq_one_or_self_of_dvd d hdvd with h | h
  · omega
  · exact hdn h

theorem prime_iff_no_divisor_le_sqrt {n : ℕ} (h2 : 2 ≤ n) :
    Nat.Prime n ↔ ∀ d ≤ Nat.sqrt n, 2 ≤ d → ¬ d ∣ n := by
  constructor
  · intro hp d hdle hd2 hdvd
    rcases hp.eq_one_or_self_of_dvd d hdvd with h | h
    · omega
    · have := Nat.sqrt_lt_self (by omega : 1 < n)
      omega
  · intro h
    by_contra hnp
    have hdvd := Nat.minFac_dvd n
    have hp := Nat.minFac_prime (by omega : n ≠ 1)
    have hsq : Nat.minFac n ^ 2 ≤ n := Nat.minFac_sq_le_self (by omega) hnp
    have hle : Nat.minFac n ≤ Nat.sqrt n := by
      rw [Nat.le_sqrt]
      calc Nat.minFac n * Nat.minFac n = Nat.minFac n ^ 2 := (sq _).symm
        _ ≤ n := hsq
    exact h _ hle hp.two_le hdvd

/-- The basic 6k±1 filter shared by `isPrime` and `isPrimeOptimized`:
when it rejects an `n ≥ 2` other than 2 and 3, `n` is composite. -/
theorem filter_reject_not_prime {n : ℕ} (h2 : 2 ≤ n) (h23 : ¬(n = 2 ∨ n = 3))
    (hf : n = 1 ∨ isDivisibleBy2 n = true ∨ isDivisibleBy3 n = true ∨
      (!isDivisibleBy6Sub n 7 && !isDivisibleBy6Sub n 5) = true) :
    ¬ Nat.Prime n := by
  have hdvd23 : n % 2 = 0 ∨ n % 3 = 0 := by
    rcases hf with h1 | hdiv2 | hdiv3 | hpat
    · omega
    · rw [isDivisibleBy2_eq] at hdiv2
      simp only [beq_iff_eq] at hdiv2
      exact Or.inl hdiv2
    · rw [isDivisibleBy3_eq] at hdiv3
      simp only [beq_iff_eq] at hdiv3
      exact Or.inr hdiv3
    · simp only [Bool.and_eq_true, Bool.not_eq_true'] at hpat
      obtain ⟨h7, h5⟩ := hpat
      unfold isDivisibleBy6Sub at h7 h5
      have h7' : 7 ≤ n → (n - 7) % 6 ≠ 0 := by
        intro hle
        rw [if_pos hle, isDivisibleBy6_eq] at h7
        simpa using h7
      have h5' : 5 ≤ n → (n - 5) % 6 ≠ 0 := by
        intro hle
        rw [if_pos hle, isDivisibleBy6_eq] at h5
        simpa using h5
      rcases Nat.lt_or_ge n 5 with hsm | h5le
      · omega
      · have h5'' := h5' h5le
        rcases Nat.lt_or_ge n 7 with h7l | h7le
        · omega
        · have h7'' := h7' h7le
          obtain ⟨q, r, hr, rfl⟩ : ∃ q r, r < 6 ∧ n = 6 * q + r :=
            ⟨n / 6, n % 6, Nat.mod_lt _ (by norm_num), by omega⟩
          interval_cases r <;> omega
  rcases hdvd23 with h | h
  · exact not_prime_of_proper_divisor (le_refl 2) (by omega) (Nat.dvd_of_mod_eq_zero h)
  · exact not_prime_of_proper_divisor (by omega) (by omega) (Nat.dvd_of_mod_eq_zero h)

/-- When the basic filter passes an `n ∉ {2, 3}`, `n` is at least 5 and
coprime to 6. -/
theorem filter_pass_shape {n : ℕ} (h2 : 2 ≤ n) (_h23 : ¬(n = 2 ∨ n = 3))
    (hf : ¬(n = 1 ∨ isDivisibleBy2 n = true ∨ isDivisibleBy3 n = true ∨
      (!isDivisibleBy6Sub n 7 && !isDivisibleBy6Sub n 5) = true)) :
    5 ≤ n ∧ n % 2 ≠ 0 ∧ n % 3 ≠ 0 := by
  push_neg at hf
  obtain ⟨-, hdiv2, hdiv3, -⟩ := hf
  rw [isDivisibleBy2_eq] at hdiv2
  rw [isDivisibleBy3_eq] at hdiv3
  simp only [ne_eq, beq_iff_eq] at hdiv2 hdiv3
  omega

/-- A prime factor witnessing compositeness: below the square root, at least 5,
and on the 6k±1 wheel, provided `n` itself is odd and not divisible by 3. -/
theorem exists_wheel_prime_factor {n : ℕ} (h5 : 5 ≤ n) (hn2 : n % 2 ≠ 0)
    (hn3 : n % 3 ≠ 0) (hnp : ¬ Nat.Prime n) :
    ∃ p, p ∣ n ∧ 5 ≤ p ∧ p ≤ Nat.sqrt n ∧ p ≠ n ∧ (p % 6 = 1 ∨ p % 6 = 5) := by
  have hp := Nat.minFac_prime (by omega : n ≠ 1)
  have hdvd := Nat.minFac_dvd n
  have hne2 : Nat.minFac n ≠ 2 := by
    intro h
    rw [h] at hdvd
    obtain ⟨k, hk⟩ := hdvd
    omega
  have hne3 : Nat.minFac n ≠ 3 := by
    intro h
    rw [h] at hdvd
    obtain ⟨k, hk⟩ := hdvd
    omega
  have h5p : 5 ≤ Nat.minFac n := by
    by_contra hlt
    have h2le := hp.two_le
    have h4 : Nat.minFac n = 4 := by omega
    rw [h4] at hp
    norm_num at hp
  have hsq : Nat.minFac n ^ 2 ≤ n := Nat.minFac_sq_le_self (by omega) hnp
  have hle : Nat.minFac n ≤ Nat.sqrt n := by
    rw [Nat.le_sqrt]
    calc Nat.minFac n * Nat.minFac n = Nat.minFac n ^ 2 := (sq _).symm
      _ ≤ n := hsq
  have hlt : Nat.sqrt n < n := Nat.sqrt_lt_self (by omega)
  have hp2 : Nat.minFac n % 2 ≠ 0 := by
    intro h
    rcases hp.eq_one_or_self_of_dvd 2 (Nat.dvd_of_mod_eq_zero h) with h' | h' <;> omega
  have hp3 : Nat.minFac n % 3 ≠ 0 := by
    intro h
    rcases hp.eq_one_or_self_of_dvd 3 (Nat.dvd_of_mod_eq_zero h) with h' | h' <;> omega
  exact ⟨Nat.minFac n, hdvd, h5p, hle, by omega, by omega⟩

/-- A successful `isDivisor` test on a candidate `c ≥ 2` proves compositeness. -/
theorem isDivisor_not_prime {n c : ℕ} (hc : 2 ≤ c) (h : isDivisor n c = true) :
    ¬ Nat.Prime n := by
  unfold isDivisor at h
  rw [if_neg (by omega : ¬ c = 0)] at h
  simp only [Bool.and_eq_true, beq_iff_eq, bne_iff_ne, ne_eq] at h
  exact not_prime_of_proper_divisor hc (Ne.symm h.2) (Nat.dvd_of_mod_eq_zero h.1)

/-- A genuine proper divisor passes the `isDivisor` test. -/
theorem isDivisor_of_dvd {n c : ℕ} (hc : 0 < c) (hdvd : c ∣ n) (hne : c ≠ n) :
    isDivisor n c = true := by
  unfold isDivisor
  rw [if_neg (by omega : ¬ c = 0)]
  simp only [Bool.and_eq_true, beq_iff_eq, bne_iff_ne, ne_eq]
  refine ⟨?_, fun h => hne h.symm⟩
  obtain ⟨k, rfl⟩ := hdvd
  exact Nat.mul_mod_right c k

/-- The candidate scan of plain `isPrime` hits a divisor exactly when `n` is
composite (for `n ≥ 5` coprime to 6). -/
theorem isPrime_scan_iff {n : ℕ} (h5 : 5 ≤ n) (hn2 : n % 2 ≠ 0) (hn3 : n % 3 ≠ 0) :
    ((List.range (sqrtFloor n + 1)).any fun part =>
      (List.range 2).any fun k =>
        isDivisor n (5 + 6 * (k + part)) ||
        isDivisor n (5 + 6 * (k + part) + 2)) = true ↔ ¬ Nat.Prime n := by
  constructor
  · intro h
    simp only [List.any_eq_true, List.mem_range, Bool.or_eq_true] at h
    obtain ⟨part, -, k, -, hdiv⟩ := h
    rcases hdiv with hd | hd
    · exact isDivisor_not_prime (by omega) hd
    · exact isDivisor_not_prime (by omega) hd
  · intro hnp
    obtain ⟨p, hpdvd, hp5, hple, hpne, hpw⟩ :=
      exists_wheel_prime_factor h5 hn2 hn3 hnp
    have hsf : Nat.sqrt n ≤ sqrtFloor n + 1 := sqrt_le_sqrtFloor_succ n
    simp only [List.any_eq_true, List.mem_range, Bool.or_eq_true]
    rcases hpw with h1 | h5m
    · -- p ≡ 1 [MOD 6], so p ≥ 7 appears as `candidate + 2` with k = 0
      refine ⟨(p - 7) / 6, by omega, 0, by norm_num, Or.inr ?_⟩
      have hc : 5 + 6 * (0 + (p - 7) / 6) + 2 = p := by omega
      rw [hc]
      exact isDivisor_of_dvd (by omega) hpdvd hpne
    · -- p ≡ 5 [MOD 6] appears as `candidate` with k = 0
      refine ⟨(p - 5) / 6, by omega, 0, by norm_num, Or.inl ?_⟩
      have hc : 5 + 6 * (0 + (p - 5) / 6) = p := by omega
      rw [hc]
      exact isDivisor_of_dvd (by omega) hpdvd hpne

/-- The plain checker decides primality for every `n ≥ 2`. -/
theorem isPrime_true_iff_prime {n : ℕ} (h2 : 2 ≤ n) :
    isPrime n = true ↔ Nat.Prime n := by
  unfold isPrime
  split_ifs with h23 hf
  · rcases h23 with rfl | rfl
    · simpa using Nat.prime_two
    · simpa using Nat.prime_three
  · simp only [Bool.false_eq_true, false_iff]
    exact filter_reject_not_prime h2 h23 hf
  · obtain ⟨h5, hn2, hn3⟩ := filter_pass_shape h2 h23 hf
    have key := isPrime_scan_iff h5 hn2 hn3
    rw [Bool.not_eq_true']
    constructor
    · intro h
      by_contra hnp
      have hb := key.mpr hnp
      rw [h] at hb
      exact Bool.false_ne_true hb
    · intro hp
      rcases Bool.eq_false_or_eq_true ((List.range (sqrtFloor n + 1)).any fun part =>
        (List.range 2).any fun k =>
          isDivisor n (5 + 6 * (k + part)) ||
          isDivisor n (5 + 6 * (k + part) + 2)) with hb | hb
      · exact absurd hp (key.mp hb)
      · exact hb

/-- On wheel values (`c % 6 ∈ {1, 5}`), `findNextCandidate` advances to the
next wheel value (`+2` from `6k-1`, `+4` from `6k+1`). -/
theorem findNextCandidate_on_wheel {c : ℕ} (hw : c % 6 = 1 ∨ c % 6 = 5) :
    findNextCandidate c = (if c % 6 = 5 then c + 2 else c + 4) ∧
      (findNextCandidate c % 6 = 1 ∨ findNextCandidate c % 6 = 5) := by
  unfold findNextCandidate
  rw [if_neg (by omega : ¬ c = 2), if_neg (by omega : ¬ c = 3)]
  rcases hw with h1 | h5
  · rw [if_neg (by omega), if_pos h1, if_neg (by omega)]
    omega
  · rw [if_pos h5, if_pos h5]
    omega

/-- The loop of `isPrimeOptimized`, entered at an on-wheel candidate with
enough fuel, returns `true` exactly when no wheel value in
`[candidate, sqrtLimit]` passes the `isDivisor` test. -/
theorem isPrimeOptimizedLoop_true_iff (n L : ℕ) :
    ∀ fuel c, (c % 6 = 1 ∨ c % 6 = 5) → L + 2 - c ≤ fuel →
      (isPrimeOptimizedLoop n L fuel c = true ↔
        ∀ m, c ≤ m → m ≤ L → (m % 6 = 1 ∨ m % 6 = 5) → isDivisor n m = false) := by
  intro fuel
  induction fuel with
  | zero =>
    intro c hw hf
    simp only [isPrimeOptimizedLoop, true_iff]
    intro m hcm hmL hmw
    omega
  | succ fuel ih =>
    intro c hw hf
    simp only [isPrimeOptimizedLoop]
    by_cases hcL : c ≤ L
    · rw [if_pos hcL]
      by_cases hd : isDivisor n c = true
      · rw [if_pos hd]
        simp only [Bool.false_eq_true, false_iff]
        intro h
        have hc := h c (le_refl c) hcL hw
        rw [hd] at hc
        exact Bool.false_ne_true hc.symm
      · rw [if_neg hd]
        have hd' : isDivisor n c = false := Bool.eq_false_iff.mpr hd
        obtain ⟨hnext, hnextw⟩ := findNextCandidate_on_wheel hw
        have hstep : c + 2 ≤ findNextCandidate c := by
          rw [hnext]; split <;> omega
        rw [ih (findNextCandidate c) hnextw (by omega)]
        constructor
        · intro h m hcm hmL hmw
          rcases Nat.eq_or_lt_of_le hcm with rfl | hlt
          · exact hd'
          · refine h m ?_ hmL hmw
            rw [hnext]
            split <;> rename_i hc6 <;> omega
        · intro h m hcm hmL hmw
          exact h m (by omega) hmL hmw
    · rw [if_neg hcL]
      simp only [true_iff]
      intro m hcm hmL hmw
      omega

/-- The optimized checker decides primality for every `n ≥ 2`. -/
theorem isPrimeOptimized_true_iff_prime {n : ℕ} (h2 : 2 ≤ n) :
    isPrimeOptimized n = true ↔ Nat.Prime n := by
  unfold isPrimeOptimized
  split_ifs with h23 hf
  · rcases h23 with rfl | rfl
    · simpa using Nat.prime_two
    · simpa using Nat.prime_three
  · simp only [Bool.false_eq_true, false_iff]
    exact filter_reject_not_prime h2 h23 hf
  · obtain ⟨h5, hn2, hn3⟩ := filter_pass_shape h2 h23 hf
    rw [isPrimeOptimizedLoop_true_iff n (sqrtFloorOpt n) (sqrtFloorOpt n + 1) 5
      (by norm_num) (by omega)]
    rw [sqrtFloorOpt_eq]
    constructor
    · intro h
      by_contra hnp
      obtain ⟨p, hpdvd, hp5, hple, hpne, hpw⟩ :=
        exists_wheel_prime_factor h5 hn2 hn3 hnp
      have hpf := h p hp5 hple hpw
      rw [isDivisor_of_dvd (by omega) hpdvd hpne] at hpf
      exact Bool.false_ne_true hpf.symm
    · intro hp m hm5 hmle hmw
      rcases Bool.eq_false_or_eq_true (isDivisor n m) with hd | hd
      · exact absurd hp (isDivisor_not_prime (by omega) hd)
      · exact hd

theorem trialDivision_true_iff_prime {n : ℕ} (h2 : 2 ≤ n) :
    trialDivisionIsPrime n = true ↔ Nat.Prime n := by
  unfold trialDivisionIsPrime
  rw [decide_eq_true_iff]
  exact (prime_iff_no_divisor_le_sqrt h2).symm

/-- C1: for every integer `n ≥ 2`, `isPrime(n)` returns true exactly when no
integer in `[2, ⌊√n⌋]` divides `n` — it agrees with exhaustive trial division
over that interval, for both the plain checker (`isPrime`, primeChecker.mjs)
and the optimized checker (`isPrimeOptimized`, primeChecker.optimized.mjs). -/
theorem isPrime_agrees_with_trialDivision (n : ℕ) (h : 2 ≤ n) :
    isPrime n = trialDivisionIsPrime n ∧
      isPrimeOptimized n = trialDivisionIsPrime n := by
  constructor
  · rw [Bool.eq_iff_iff, isPrime_true_iff_prime h, trialDivision_true_iff_prime h]
  · rw [Bool.eq_iff_iff, isPrimeOptimized_true_iff_prime h,
      trialDivision_true_iff_prime h]

/-- Witness for C1 at `n = 97`. -/
theorem isPrime_agrees_with_trialDivision_witness :
    2 ≤ 97 ∧ (isPrime 97 = trialDivisionIsPrime 97 ∧
      isPrimeOptimized 97 = trialDivisionIsPrime 97) :=
  ⟨by norm_num, isPrime_agrees_with_trialDivision 97 (by norm_num)⟩

/-! ## The Oracle basic filter (`notPrimeBasicChecker`)
(src/services/primeChecker.mjs lines 278-303 — plain;
src/src/services/primeChecker.optimized.mjs lines 410-439 — optimized) -/

/-- `notPrimeBasicChecker` (primeChecker.mjs, plain version): returns `true`
("not prime") on 1, multiples of 2, 3 or 5, and numbers off the 6k±1 pattern.
This version has **no** special case for 2, 3 and 5. -/
def notPrimeBasicChecker (number : ℕ) : Bool :=
  if number = 1 then true
  else if isDivisibleBy2 number then true
  else if isDivisibleBy3 number then true
  else if isDivisibleBy5 number then true
  else if !isDivisibleBy6Sub number 7 && !isDivisibleBy6Sub number 5 then true
  else false

/-- `notPrimeBasicChecker` (primeChecker.optimized.mjs): same filter but with
the special case `number ∈ {"2","3","5"} → false` before the divisibility
tests. -/
def notPrimeBasicCheckerOpt (number : ℕ) : Bool :=
  if number = 1 then true
  else if number = 2 ∨ number = 3 ∨ number = 5 then false
  else if isDivisibleBy2 number then true
  else if isDivisibleBy3 number then true
  else if isDivisibleBy5 number then true
  else if !isDivisibleBy6Sub number 7 && !isDivisibleBy6Sub number 5 then true
  else false

/-- C2 counterexample: the plain `notPrimeBasicChecker` (primeChecker.mjs)
returns `true` ("not prime") on 2, 3 and 5 — `isDivisibleBy2("2")` etc. fire
before any special case — so the claim that `notPrimeBasicChecker(n)` does not
return true for `n ∈ {2,3,5}` is false for this cited version, and the oracle
entry point `isPrimeFromTextFilesRecursive`, which starts with
`if (notPrimeBasicChecker(num)) return false`, answers `false` for 2, 3, 5. -/
theorem notPrimeBasicChecker_rejects_small_primes :
    notPrimeBasicChecker 2 = true ∧ notPrimeBasicChecker 3 = true ∧
      notPrimeBasicChecker 5 = true := by decide

/-- C2 (amended): the **optimized** `notPrimeBasicChecker` classifies 2, 3, 5
as prime (returns `false`), and it reports "not prime" only for `n < 2`, `n`
divisible by 2, 3 or 5, or `n` not congruent to ±1 mod 6. -/
theorem notPrimeBasicCheckerOpt_correct :
    (notPrimeBasicCheckerOpt 2 = false ∧ notPrimeBasicCheckerOpt 3 = false ∧
      notPrimeBasicCheckerOpt 5 = false) ∧
    ∀ n, notPrimeBasicCheckerOpt n = true →
      n < 2 ∨ 2 ∣ n ∨ 3 ∣ n ∨ 5 ∣ n ∨ ¬(n % 6 = 1 ∨ n % 6 = 5) := by
  refine ⟨by decide, ?_⟩
  intro n h
  unfold notPrimeBasicCheckerOpt at h
  split_ifs at h with h1 h235 h2d h3d h5d hpat
  · left; omega
  · right; left
    rw [isDivisibleBy2_eq] at h2d
    simp only [beq_iff_eq] at h2d
    exact Nat.dvd_of_mod_eq_zero h2d
  · right; right; left
    rw [isDivisibleBy3_eq] at h3d
    simp only [beq_iff_eq] at h3d
    exact Nat.dvd_of_mod_eq_zero h3d
  · right; right; right; left
    rw [isDivisibleBy5_eq] at h5d
    simp only [beq_iff_eq] at h5d
    exact Nat.dvd_of_mod_eq_zero h5d
  · -- the pattern branch is unreachable for n coprime to 6 other than 1 and 5,
    -- and everything else was caught above
    exfalso
    rw [isDivisibleBy2_eq] at h2d
    rw [isDivisibleBy3_eq] at h3d
    simp only [beq_iff_eq] at h2d h3d
    simp only [Bool.and_eq_true, Bool.not_eq_true'] at hpat
    obtain ⟨h7, h5s⟩ := hpat
    unfold isDivisibleBy6Sub at h7 h5s
    have hn17 : n % 6 = 1 ∨ n % 6 = 5 := by omega
    have hn5 : 5 ≤ n := by omega
    rcases hn17 with hm | hm
    · have hge : 7 ≤ n := by omega
      rw [if_pos hge, isDivisibleBy6_eq] at h7
      simp only [beq_eq_false_iff_ne, ne_eq] at h7
      omega
    · rw [if_pos hn5, isDivisibleBy6_eq] at h5s
      simp only [beq_eq_false_iff_ne, ne_eq] at h5s
      omega

/-- Witness for the amended C2 at `n = 9` (reported not prime because `3 ∣ 9`). -/
theorem notPrimeBasicCheckerOpt_correct_witness :
    (notPrimeBasicCheckerOpt 2 = false ∧ notPrimeBasicCheckerOpt 3 = false ∧
      notPrimeBasicCheckerOpt 5 = false) ∧
    (9 < 2 ∨ 2 ∣ 9 ∨ 3 ∣ 9 ∨ 5 ∣ 9 ∨ ¬(9 % 6 = 1 ∨ 9 % 6 = 5)) :=
  ⟨notPrimeBasicCheckerOpt_correct.1,
    notPrimeBasicCheckerOpt_correct.2 9 (by decide)⟩

/-! ## Cache extension (`generatePrimesUpTo`, src/src/services/primeGenerator.mjs)
The file system is abstracted as the list of bounds whose `output-<bound>`
folder exists (`numFolderExist`, fileOperations.mjs). -/

/-- `generatePrimesUpTo` (primeGenerator.mjs lines 29-63) with the default
`current = "2"`: if `numFolderExist(number)` finds the folder, it returns JS
`undefined` (modelled `none`) immediately; otherwise it creates the folder,
tests every `current ∈ [2, number]` with `isPrime` and returns the prime
count.  Result: (folders after the call, return value, number of `isPrime`
tests performed). -/
def generatePrimesUpTo (number : ℕ) (folders : List ℕ) :
    List ℕ × Option ℕ × ℕ :=
  if number ∈ folders then (folders, none, 0)
  else (number :: folders,
    some ((List.range' 2 (number - 1)).countP (fun c => isPrime c)),
    number - 1)

/-- C6 counterexample: calling `generatePrimesUpTo(10)` twice — the first call
returns the prime count `4` after `9` primality tests; the second call detects
the folder via `numFolderExist` and returns `undefined`, *not* the persisted
result of the first call. -/
theorem generatePrimesUpTo_second_call_differs :
    generatePrimesUpTo 10 [] = ([10], some 4, 9) ∧
    generatePrimesUpTo 10 [10] = ([10], none, 0) ∧
    (generatePrimesUpTo 10 [10]).2.1 ≠ (generatePrimesUpTo 10 []).2.1 := by
  decide

/-- C6 (amended): after any call `generatePrimesUpTo N`, the folder for `N`
exists, and a repeated call with the same `N` performs no primality tests and
leaves the store unchanged — but it returns `undefined` (`none`), not the
first call's persisted result.  The folder is detected by `numFolderExist`
before any computation. -/
theorem generatePrimesUpTo_idempotent_amended (N : ℕ) (folders : List ℕ) :
    N ∈ (generatePrimesUpTo N folders).1 ∧
    generatePrimesUpTo N ((generatePrimesUpTo N folders).1) =
      ((generatePrimesUpTo N folders).1, none, 0) := by
  by_cases h : N ∈ folders <;> simp [generatePrimesUpTo, h]

/-! ## Input handling of `isPrime` (C9)
(src/services/primeChecker.mjs lines 56-66;
src/src/services/mathOperations.optimized.mjs lines 29-34) -/

/-- The JavaScript values that can reach `isPrime`. -/
inductive JSVal where
  | str : String → JSVal
  | num : Int → JSVal
  | boolean : Bool → JSVal
  | undef : JSVal
deriving DecidableEq

/-- JS truthiness of the values above (a non-empty string is truthy). -/
def truthy : JSVal → Bool
  | .str s => !s.isEmpty
  | .num k => k != 0
  | .boolean b => b
  | .undef => false

/-- JS `+c` digit conversion of one character: `none` is `NaN`. -/
def charToDigit (c : Char) : Option ℕ :=
  if '0' ≤ c ∧ c ≤ '9' then some (c.toNat - '0'.toNat) else none

/-- `isDivisibleBy2` at the JS value level: non-strings get the type-guard
message `"Input should be a string."`; for a string the last character is
converted with `+` (`NaN` for a non-digit or an empty string, and
`NaN % 2 === 0` is false). -/
def isDivisibleBy2JS : JSVal → JSVal
  | .str s =>
    .boolean (match s.data.getLast? with
      | some c =>
        match charToDigit c with
        | some d => d % 2 == 0
        | none => false
      | none => false)
  | _ => .str "Input should be a string."

/-- The prefix of `isPrime` (primeChecker.mjs lines 56-66) that every
non-string argument fully evaluates: the strict string equalities `"2"`, `"3"`,
`"1"` fail, and the second condition short-circuits at `isDivisibleBy2`, whose
type-guard message is a *truthy* string, so the function returns `false`.
The later disjuncts (`isDivisibleBy3`, the 6k±1 pattern via `subtractNumbers`)
are never evaluated for such arguments, and no exception is thrown anywhere on
this path — the code contains no `throw` and no `InvalidInput` error at all. -/
def isPrimeGuard (v : JSVal) : Option Bool :=
  if v = .str "2" ∨ v = .str "3" then some true
  else if v = .str "1" ∨ truthy (isDivisibleBy2JS v) = true then some false
  else none

/-- C9 counterexample: for the non-string argument `42`, `isPrime` silently
returns the boolean `false` — the type-guard message returned by
`isDivisibleBy2` is truthy and triggers the composite branch — instead of
failing with an `InvalidInput` error as the claim requires. -/
theorem isPrimeGuard_num_returns_false :
    isPrimeGuard (JSVal.num 42) = some false := by decide

/-- C9 (amended): `isPrime` never raises an `InvalidInput` error: every
non-string argument is answered with the boolean `false`, silently. -/
theorem isPrimeGuard_nonstring_silent (v : JSVal) (hv : ∀ s, v ≠ JSVal.str s) :
    isPrimeGuard v = some false := by
  cases v with
  | str s => exact absurd rfl (hv s)
  | num k =>
    simp only [isPrimeGuard, isDivisibleBy2JS, truthy]
    rw [if_neg (by simp), if_pos (Or.inr (by decide))]
  | boolean b =>
    simp only [isPrimeGuard, isDivisibleBy2JS, truthy]
    rw [if_neg (by simp), if_pos (Or.inr (by decide))]
  | undef =>
    simp only [isPrimeGuard, isDivisibleBy2JS, truthy]
    rw [if_neg (by simp), if_pos (Or.inr (by decide))]

/-- Witness for the amended C9 at the value `42`. -/
theorem isPrimeGuard_nonstring_silent_witness :
    isPrimeGuard (JSVal.num 42) = some false :=
  isPrimeGuard_nonstring_silent (JSVal.num 42) (fun s => by simp)

/-! ## Cache lookup (`findMatchingFolder`, src/services/fileOperations.mjs) -/

/-- On an ascending list, `find?` with the predicate `x < ·` returns exactly
the least element strictly greater than `x`. -/
theorem find?_gt_of_sorted (x : ℕ) :
    ∀ l : List ℕ, l.Pairwise (fun a b : ℕ => a ≤ b) →
      ∀ z, (l.find? (fun b => x < b) = some z ↔
        z ∈ l ∧ x < z ∧ ∀ c ∈ l, x < c → z ≤ c) := by
  intro l
  induction l with
  | nil => intro _ z; simp
  | cons a t ih =>
    intro hs z
    have hs' := (List.pairwise_cons.mp hs).2
    have hal := (List.pairwise_cons.mp hs).1
    by_cases hxa : x < a
    · rw [List.find?_cons_of_pos _ (by simpa using hxa)]
      constructor
      · intro h
        injection h with h
        subst h
        refine ⟨List.mem_cons_self _ _, hxa, ?_⟩
        intro c hc _
        rcases List.mem_cons.mp hc with rfl | hct
        · exact le_refl _
        · exact hal c hct
      · rintro ⟨hmem, hxz, hmin⟩
        have h1 : z ≤ a := hmin a (List.mem_cons_self _ _) hxa
        have h2 : a ≤ z := by
          rcases List.mem_cons.mp hmem with rfl | hzt
          · exact le_refl _
          · exact hal z hzt
        rw [Nat.le_antisymm h1 h2]
    · rw [List.find?_cons_of_neg _ (by simpa using hxa)]
      rw [ih hs' z]
      constructor
      · rintro ⟨hmem, hxz, hmin⟩
        refine ⟨List.mem_cons_of_mem a hmem, hxz, ?_⟩
        intro c hc hxc
        rcases List.mem_cons.mp hc with rfl | hct
        · exact absurd hxc hxa
        · exact hmin c hct hxc
      · rintro ⟨hmem, hxz, hmin⟩
        rcases List.mem_cons.mp hmem with rfl | hzt
        · exact absurd hxz hxa
        · exact ⟨hzt, hxz, fun c hc hxc => hmin c (List.mem_cons_of_mem a hc) hxc⟩

/-- `findMatchingFolder` (fileOperations.mjs) over the list of existing folder
bounds: sort ascending, return the first bound `b` with
`findMax(b, number) !== number`.  `findMax` returns its *second* argument on
equality, so the predicate is `number < b` — strictly greater — and a folder
whose bound equals `number` exactly is skipped.  `none` models the
"`number` is larger than the available outputs" message. -/
def findMatchingFolder (bounds : List ℕ) (number : ℕ) : Option ℕ :=
  (bounds.mergeSort (fun a b => a ≤ b)).find? (fun b => number < b)

/-- C5 counterexample: with a single cached folder of bound exactly 100 and a
query for 100, `findMatchingFolder` reports "larger than the available
outputs" (`none`) instead of returning the matching folder, because its
predicate demands a strictly greater bound. -/
theorem findMatchingFolder_skips_equal_bound :
    findMatchingFolder [100] 100 = none ∧ (100 : ℕ) ∈ [100] := by
  constructor
  · unfold findMatchingFolder
    rw [List.mergeSort_singleton]
    rfl
  · exact List.mem_cons_self _ _

/-- C5 (amended): `findMatchingFolder` returns the smallest existing bound
**strictly greater** than the query — never an exactly-equal bound — and the
"larger than available outputs" message exactly when no bound exceeds the
query. -/
theorem findMatchingFolder_least_strictly_greater (bounds : List ℕ) (x : ℕ) :
    (∀ b, findMatchingFolder bounds x = some b ↔
      b ∈ bounds ∧ x < b ∧ ∀ c ∈ bounds, x < c → b ≤ c) ∧
    (findMatchingFolder bounds x = none ↔ ∀ c ∈ bounds, c ≤ x) := by
  have hperm := List.mergeSort_perm bounds (fun a b : ℕ => a ≤ b)
  have hsorted : (bounds.mergeSort (fun a b : ℕ => a ≤ b)).Pairwise
      (fun a b : ℕ => a ≤ b) := by
    have h := @List.sorted_mergeSort ℕ (fun a b : ℕ => a ≤ b)
      (fun a b c hab hbc => by
        simp only [decide_eq_true_eq] at *; omega)
      (fun a b => by simp only [Bool.or_eq_true, decide_eq_true_eq]; omega)
      bounds
    exact h.imp (fun h => by simpa using h)
  constructor
  · intro b
    rw [findMatchingFolder, find?_gt_of_sorted x _ hsorted b]
    constructor
    · rintro ⟨hmem, hxb, hmin⟩
      exact ⟨hperm.mem_iff.mp hmem, hxb,
        fun c hc hxc => hmin c (hperm.mem_iff.mpr hc) hxc⟩
    · rintro ⟨hmem, hxb, hmin⟩
      exact ⟨hperm.mem_iff.mpr hmem, hxb,
        fun c hc hxc => hmin c (hperm.mem_iff.mp hc) hxc⟩
  · rw [findMatchingFolder, List.find?_eq_none]
    constructor
    · intro h c hc
      have := h c (hperm.mem_iff.mpr hc)
      simpa using this
    · intro h c hc
      simpa using h c (hperm.mem_iff.mp hc)

/-! ## Wheel-210 (src/src/services/wheel210.optimized.mjs) -/

/-- `Wheel210.SPOKES`: the 48 residues mod 210 coprime to 210. -/
def SPOKES : List ℕ :=
  [1, 11, 13, 17, 19, 23, 29, 31, 37, 41, 43, 47, 53, 59, 61, 67, 71, 73, 79,
   83, 89, 97, 101, 103, 107, 109, 113, 121, 127, 131, 137, 139, 143, 149,
   151, 157, 163, 167, 169, 173, 179, 181, 187, 191, 193, 197, 199, 209]

theorem spokes_sorted : SPOKES.Pairwise (fun a b : ℕ => a ≤ b) := by decide

theorem spokes_bounds : ∀ sp ∈ SPOKES, 1 ≤ sp ∧ sp ≤ 209 := by decide

/-- The wheel candidates of the mod-6 generators: the values `6k ± 1`, `k ≥ 1`,
that `generate6kCandidates` and `findNextCandidate` walk through. -/
def Cand6 (m : ℕ) : Prop := 5 ≤ m ∧ (m % 6 = 1 ∨ m % 6 = 5)

/-- The wheel candidates of the mod-210 generator: the explicit small primes
2, 3, 5, 7, 11 plus, from 13 on, the residues coprime to 210. -/
def Cand210 (m : ℕ) : Prop :=
  m ∈ [2, 3, 5, 7, 11] ∨ (13 ≤ m ∧ m % 210 ∈ SPOKES)

instance (m : ℕ) : Decidable (Cand6 m) := by unfold Cand6; infer_instance

instance (m : ℕ) : Decidable (Cand210 m) := by unfold Cand210; infer_instance

/-- `Wheel210.nextCandidate` (wheel210.optimized.mjs lines 90-115): a ladder of
small primes up to 13, then a scan of the spoke list for the first spoke
exceeding `current % 210`; if none remains, the first spoke of the next
rotation (`base + 210 + SPOKES[0]`). -/
def wheel210NextCandidate (current : ℕ) : ℕ :=
  if current < 2 then 2
  else if current < 3 then 3
  else if current < 5 then 5
  else if current < 7 then 7
  else if current < 11 then 11
  else if current < 13 then 13
  else
    match SPOKES.find? (fun sp => current % 210 < sp) with
    | some sp => current / 210 * 210 + sp
    | none => current / 210 * 210 + 210 + SPOKES.headD 0

/-- C7 counterexample: for `current = 6` — a multiple of 6, off the wheel — the
mod-6 `findNextCandidate` (helper.mjs / helper.optimized.mjs) returns 11, the
next `6k+5` value, skipping the wheel candidate `7 = 6·1 + 1`; the claim
demands `current + 1 = 7`.  The returned value is therefore not the smallest
wheel candidate strictly greater than 6. -/
theorem findNextCandidate_six_not_least :
    findNextCandidate 6 = 11 ∧ Cand6 7 ∧
      ¬ IsLeast {m | Cand6 m ∧ 6 < m} (findNextCandidate 6) := by
  refine ⟨by decide, by decide, ?_⟩
  intro h
  have h7 : (7 : ℕ) ∈ {m | Cand6 m ∧ 6 < m} := ⟨⟨by norm_num, by norm_num⟩, by norm_num⟩
  have hle := h.2 h7
  rw [show findNextCandidate 6 = 11 from by decide] at hle
  omega

/-- C7 (amended): `findNextCandidate` returns the smallest mod-6 wheel value
greater than `current` whenever `current ≥ 4` is **not** a multiple of 6; on a
multiple of 6 it returns `current + 5` (the next `6k+5`), skipping
`current + 1`.  `Wheel210.nextCandidate` returns the smallest wheel-210
candidate greater than `current` for every `current`. -/
theorem nextCandidate_amended (c : ℕ) :
    (4 ≤ c → c % 6 ≠ 0 → IsLeast {m | Cand6 m ∧ c < m} (findNextCandidate c)) ∧
    (c % 6 = 0 → findNextCandidate c = c + 5) ∧
    IsLeast {m | Cand210 m ∧ c < m} (wheel210NextCandidate c) := by
  refine ⟨?_, ?_, ?_⟩
  · intro h4 h6
    unfold findNextCandidate
    rw [if_neg (by omega : ¬ c = 2), if_neg (by omega : ¬ c = 3)]
    by_cases h5 : c % 6 = 5
    · rw [if_pos h5]
      refine ⟨⟨⟨by omega, by omega⟩, by omega⟩, ?_⟩
      rintro m ⟨⟨hm5, hmw⟩, hcm⟩
      omega
    · by_cases h1 : c % 6 = 1
      · rw [if_neg h5, if_pos h1]
        refine ⟨⟨⟨by omega, by omega⟩, by omega⟩, ?_⟩
        rintro m ⟨⟨hm5, hmw⟩, hcm⟩
        omega
      · rw [if_neg h5, if_neg h1]
        refine ⟨⟨⟨by omega, by omega⟩, by omega⟩, ?_⟩
        rintro m ⟨⟨hm5, hmw⟩, hcm⟩
        omega
  · intro h0
    unfold findNextCandidate
    rw [if_neg (by omega : ¬ c = 2), if_neg (by omega : ¬ c = 3),
      if_neg (by omega), if_neg (by omega)]
    omega
  · by_cases hc13 : c < 13
    · unfold wheel210NextCandidate
      split_ifs with h1 h2 h3 h4 h5
      · refine ⟨⟨by decide, by omega⟩, ?_⟩
        rintro m ⟨hcand, hlt⟩
        rcases hcand with hs | ⟨h13m, -⟩
        · fin_cases hs <;> omega
        · omega
      · refine ⟨⟨by decide, by omega⟩, ?_⟩
        rintro m ⟨hcand, hlt⟩
        rcases hcand with hs | ⟨h13m, -⟩
        · fin_cases hs <;> omega
        · omega
      · refine ⟨⟨by decide, by omega⟩, ?_⟩
        rintro m ⟨hcand, hlt⟩
        rcases hcand with hs | ⟨h13m, -⟩
        · fin_cases hs <;> omega
        · omega
      · refine ⟨⟨by decide, by omega⟩, ?_⟩
        rintro m ⟨hcand, hlt⟩
        rcases hcand with hs | ⟨h13m, -⟩
        · fin_cases hs <;> omega
        · omega
      · refine ⟨⟨by decide, by omega⟩, ?_⟩
        rintro m ⟨hcand, hlt⟩
        rcases hcand with hs | ⟨h13m, -⟩
        · fin_cases hs <;> omega
        · omega
      · refine ⟨⟨Or.inr ⟨by omega, by decide⟩, by omega⟩, ?_⟩
        rintro m ⟨hcand, hlt⟩
        rcases hcand with hs | ⟨h13m, -⟩
        · fin_cases hs <;> omega
        · omega
    · push_neg at hc13
      unfold wheel210NextCandidate
      rw [if_neg (by omega), if_neg (by omega), if_neg (by omega),
        if_neg (by omega), if_neg (by omega), if_neg (by omega)]
      have hdc := Nat.div_add_mod c 210
      have hcmod : c % 210 < 210 := Nat.mod_lt _ (by norm_num)
      rcases hfind : SPOKES.find? (fun sp => c % 210 < sp) with - | sp
      · simp only [hfind]
        have hnone := List.find?_eq_none.mp hfind
        have h209 : ¬ (c % 210 < 209) := by
          have := hnone 209 (by decide)
          simpa using this
        have hoff : c % 210 = 209 := by omega
        rw [show SPOKES.headD 0 = 1 from rfl]
        have heq : c / 210 * 210 + 210 + 1 = 210 * (c / 210 + 1) + 1 := by omega
        refine ⟨⟨Or.inr ⟨by omega, ?_⟩, by omega⟩, ?_⟩
        · rw [heq, Nat.mul_add_mod]
          decide
        · rintro m ⟨hcand, hlt⟩
          rcases hcand with hs | ⟨h13m, hsp⟩
          · fin_cases hs <;> omega
          · have hdm := Nat.div_add_mod m 210
            obtain ⟨hr1, hr209⟩ := spokes_bounds _ hsp
            rcases Nat.lt_trichotomy (m / 210) (c / 210) with hq | hq | hq
            · omega
            · omega
            · omega
      · simp only [hfind]
        obtain ⟨hspmem, hsplt, hspmin⟩ :=
          (find?_gt_of_sorted (c % 210) SPOKES spokes_sorted sp).mp hfind
        obtain ⟨hsp1, hsp209⟩ := spokes_bounds _ hspmem
        have heq : c / 210 * 210 + sp = 210 * (c / 210) + sp := by omega
        refine ⟨⟨Or.inr ⟨by omega, ?_⟩, by omega⟩, ?_⟩
        · rw [heq, Nat.mul_add_mod, Nat.mod_eq_of_lt (by omega)]
          exact hspmem
        · rintro m ⟨hcand, hlt⟩
          rcases hcand with hs | ⟨h13m, hsp'⟩
          · fin_cases hs <;> omega
          · have hdm := Nat.div_add_mod m 210
            obtain ⟨hr1, hr209⟩ := spokes_bounds _ hsp'
            rcases Nat.lt_trichotomy (m / 210) (c / 210) with hq | hq | hq
            · omega
            · have hge : sp ≤ m % 210 := hspmin _ hsp' (by omega)
              omega
            · omega

/-- Witness for the amended C7 at `current = 10` and `current = 12`. -/
theorem nextCandidate_amended_witness :
    IsLeast {m | Cand6 m ∧ 10 < m} (findNextCandidate 10) ∧
    findNextCandidate 12 = 12 + 5 ∧
    IsLeast {m | Cand210 m ∧ 10 < m} (wheel210NextCandidate 10) :=
  ⟨(nextCandidate_amended 10).1 (by norm_num) (by norm_num),
   (nextCandidate_amended 12).2.1 (by norm_num),
   (nextCandidate_amended 10).2.2⟩

/-! ## Factorization (`calculateDivisors`, src/services/numberDivisors.mjs) -/

/-- The inner scan of `calculateDivisors`: `currentDivisor` runs from `"2"`
while `currentDivisor ≤ sqrtFloor(num)`, returning the first divisor found. -/
def findDivisorInScan (num : ℕ) : Option ℕ :=
  (List.range' 2 (sqrtFloor num - 1)).find? (fun d => isDivisor num d)

/-- The outer while-loop of `calculateDivisors` (numberDivisors.mjs lines
17-51): while `num ≠ "1"`, push `num` and stop if `isPrime(num)`; otherwise
push the smallest divisor in `[2, sqrtFloor(num)]` and divide it out, or, if
the scan finds none, push `num` itself and stop.  `num` strictly decreases at
each division, so `num` itself is enough fuel. -/
def calculateDivisorsLoop : ℕ → ℕ → List ℕ
  | 0, _ => []
  | fuel + 1, num =>
    if num = 1 then []
    else if isPrime num then [num]
    else match findDivisorInScan num with
      | some d => d :: calculateDivisorsLoop fuel (num / d)
      | none => [num]

/-- `calculateDivisors` (numberDivisors.mjs): the list starts as `["1"]`, the
loop appends the factors, and the result is sorted ascending (the JS
comparator orders canonical decimal strings numerically). -/
def calculateDivisors (num : ℕ) : List ℕ :=
  (1 :: calculateDivisorsLoop num num).mergeSort (fun a b => a ≤ b)

theorem findDivisorInScan_some {num d : ℕ} (h : findDivisorInScan num = some d) :
    2 ≤ d ∧ d ∣ num ∧ num ≠ d := by
  unfold findDivisorInScan at h
  have hmem := List.mem_of_find?_eq_some h
  have hpd := List.find?_some h
  rw [List.mem_range'] at hmem
  obtain ⟨i, -, rfl⟩ := hmem
  unfold isDivisor at hpd
  rw [if_neg (by omega)] at hpd
  simp only [Bool.and_eq_true, beq_iff_eq, bne_iff_ne, ne_eq] at hpd
  exact ⟨by omega, Nat.dvd_of_mod_eq_zero hpd.1, hpd.2⟩

theorem calculateDivisorsLoop_prod :
    ∀ fuel num, 1 ≤ num → num ≤ fuel →
      (calculateDivisorsLoop fuel num).prod = num := by
  intro fuel
  induction fuel with
  | zero => intro num h1 h0; omega
  | succ fuel ih =>
    intro num h1 hle
    rw [calculateDivisorsLoop]
    by_cases hone : num = 1
    · rw [if_pos hone, hone]; rfl
    · rw [if_neg hone]
      by_cases hp : isPrime num = true
      · rw [if_pos hp]; simp
      · rw [if_neg hp]
        rcases hscan : findDivisorInScan num with - | d
        · simp
        · obtain ⟨hd2, hdvd, hdne⟩ := findDivisorInScan_some hscan
          have hnum2 : 2 ≤ num := by omega
          have hdle : d ≤ num := Nat.le_of_dvd (by omega) hdvd
          have hq1 : 1 ≤ num / d := (Nat.one_le_div_iff (by omega)).mpr hdle
          have hqlt : num / d < num := Nat.div_lt_self (by omega) (by omega)
          simp only [List.prod_cons]
          rw [ih (num / d) hq1 (by omega)]
          exact Nat.mul_div_cancel' hdvd

/-- C4 counterexample: `calculateDivisors` seeds the list with `"1"`, so
`calculateDivisors(1) = ["1"]` (not the empty list the claim requires) and the
element `1` is not prime; moreover for `n = 9` the buggy original
`sqrtFloor(9) = 2` makes the scan miss the divisor 3, so
`calculateDivisors(9) = ["1","9"]`, whose element 9 is not prime either. -/
theorem calculateDivisors_one_and_nine :
    calculateDivisors 1 = [1] ∧ calculateDivisors 9 = [1, 9] ∧
      ¬ Nat.Prime 9 ∧ ¬ Nat.Prime 1 := by
  refine ⟨?_, ?_, by norm_num, by norm_num⟩
  · unfold calculateDivisors
    rw [show calculateDivisorsLoop 1 1 = [] from rfl]
    exact List.mergeSort_singleton 1
  · unfold calculateDivisors
    rw [show calculateDivisorsLoop 9 9 = [9] from by decide]
    exact List.mergeSort_of_sorted (by decide)

/-- C4 (amended): for every `n ≥ 1`, `calculateDivisors(n)` is an ascending
list whose product is `n`, it always starts with the extra element `"1"`,
`n = 1` yields `["1"]` (not the empty list) and a prime `n` yields the
two-element list `["1", n]` (not a single-element list).  Its other entries
are the factors found by the scan, which — because the plain `sqrtFloor`
can undershoot the square root — are not always prime
(`calculateDivisors 9 = ["1", "9"]`). -/
theorem calculateDivisors_amended (n : ℕ) (h1 : 1 ≤ n) :
    (calculateDivisors n).prod = n ∧
    (calculateDivisors n).Pairwise (· ≤ ·) ∧
    (1 : ℕ) ∈ calculateDivisors n ∧
    (n = 1 → calculateDivisors n = [1]) ∧
    (Nat.Prime n → calculateDivisors n = [1, n]) := by
  have hperm := List.mergeSort_perm (1 :: calculateDivisorsLoop n n)
    (fun a b : ℕ => a ≤ b)
  refine ⟨?_, ?_, ?_, ?_, ?_⟩
  · rw [calculateDivisors, hperm.prod_eq]
    simp only [List.prod_cons, one_mul]
    exact calculateDivisorsLoop_prod n n h1 (le_refl n)
  · have h := @List.sorted_mergeSort ℕ (fun a b : ℕ => a ≤ b)
      (fun a b c hab hbc => by simp only [decide_eq_true_eq] at *; omega)
      (fun a b => by simp only [Bool.or_eq_true, decide_eq_true_eq]; omega)
      (1 :: calculateDivisorsLoop n n)
    exact h.imp (fun hab => by simpa using hab)
  · rw [calculateDivisors]
    exact hperm.mem_iff.mpr (List.mem_cons_self _ _)
  · intro hn
    subst hn
    rw [calculateDivisors, show calculateDivisorsLoop 1 1 = [] from rfl]
    exact List.mergeSort_singleton 1
  · intro hp
    have h2 : 2 ≤ n := hp.two_le
    obtain ⟨m, rfl⟩ : ∃ m, n = m + 1 := ⟨n - 1, by omega⟩
    rw [calculateDivisors, calculateDivisorsLoop, if_neg (by omega),
      if_pos ((isPrime_true_iff_prime h2).mpr hp)]
    refine List.mergeSort_of_sorted ?_
    refine List.pairwise_cons.mpr ⟨?_, List.pairwise_singleton _ _⟩
    intro b hb
    rw [List.mem_singleton] at hb
    subst hb
    simp only [decide_eq_true_eq]
    omega

/-- Witness for the amended C4 at `n = 360`. -/
theorem calculateDivisors_amended_witness :
    1 ≤ 360 ∧ ((calculateDivisors 360).prod = 360 ∧
      (calculateDivisors 360).Pairwise (· ≤ ·) ∧
      (1 : ℕ) ∈ calculateDivisors 360 ∧
      (360 = 1 → calculateDivisors 360 = [1]) ∧
      (Nat.Prime 360 → calculateDivisors 360 = [1, 360])) :=
  ⟨by norm_num, calculateDivisors_amended 360 (by norm_num)⟩

/-! ## `divideNumbers` (C10)
(src/src/services/mathOperations.optimized.mjs lines 231-268: BigInt fast path
plus string fallback; the original divideNumbers of mathOperations.mjs is
exactly the string algorithm.) -/

/-- BigInt fast path of `divideNumbers`: `[n1 / n2, n1 % n2]` as canonical
decimal strings; `"Division by zero is undefined."` (here `none`) for
`num2 = "0"`. -/
def divideNumbersBig (a b : ℕ) : Option (ℕ × ℕ) :=
  if b = 0 then none else some (a / b, a % b)

/-- The repeated-subtraction inner loop of `stringDivideNumbers`:
`while (findMax(remainder, num2) === remainder)` — i.e. while `b ≤ r`
(`findMax` returns its second argument on equality, which string-compares
equal to the remainder) — subtract and count.  `r` bounds the iteration count
whenever `b ≥ 1`. -/
def subtractCountLoop (b : ℕ) : ℕ → ℕ → ℕ × ℕ
  | 0, r => (0, r)
  | fuel + 1, r =>
    if b ≤ r then
      let p := subtractCountLoop b fuel (r - b)
      (p.1 + 1, p.2)
    else (0, r)

theorem subtractCountLoop_eq (b : ℕ) (hb : 0 < b) :
    ∀ fuel r, r ≤ fuel → subtractCountLoop b fuel r = (r / b, r % b) := by
  intro fuel
  induction fuel with
  | zero =>
    intro r hr
    have : r = 0 := by omega
    subst this
    simp [subtractCountLoop]
  | succ fuel ih =>
    intro r hr
    rw [subtractCountLoop]
    by_cases h : b ≤ r
    · rw [if_pos h, ih (r - b) (by omega)]
      simp only
      rw [Nat.div_eq_sub_div hb h, Nat.mod_eq_sub_mod h]
    · rw [if_neg h, Nat.div_eq_of_lt (by omega), Nat.mod_eq_of_lt (by omega)]

/-- The digit-by-digit outer loop of `stringDivideNumbers`: state is the
quotient accumulated so far (as a value — appending the count digit is
`q * 10 + count`, the count being a single digit because the running
remainder stays `< num2`) and the running remainder. -/
def stringDivideLoop (b : ℕ) (digits : List ℕ) : ℕ × ℕ :=
  digits.foldl (fun qr d =>
    let r := qr.2 * 10 + d
    let p := subtractCountLoop b r r
    (qr.1 * 10 + p.1, p.2)) (0, 0)

/-- `stringDivideNumbers` (and the original `divideNumbers` of
mathOperations.mjs): long division over the decimal digits of `num1`, most
significant first, with the `num2 = "0"` guard of `divideNumbers`. -/
def stringDivideNumbers (a b : ℕ) : Option (ℕ × ℕ) :=
  if b = 0 then none
  else some (stringDivideLoop b (decimalDigits a).reverse)

theorem stringDivideLoop_inv (b : ℕ) (hb : 0 < b) :
    ∀ (ds : List ℕ) (q r : ℕ), r < b →
      ds.foldl (fun qr d =>
        let r' := qr.2 * 10 + d
        let p := subtractCountLoop b r' r'
        (qr.1 * 10 + p.1, p.2)) (q, r) =
      ((ds.foldl (fun v d => v * 10 + d) (b * q + r)) / b,
       (ds.foldl (fun v d => v * 10 + d) (b * q + r)) % b) := by
  intro ds
  induction ds with
  | nil =>
    intro q r hr
    simp only [List.foldl_nil]
    rw [Nat.mul_add_div hb, Nat.mul_add_mod, Nat.div_eq_of_lt hr,
      Nat.mod_eq_of_lt hr, Nat.add_zero]
  | cons d ds ih =>
    intro q r hr
    simp only [List.foldl_cons]
    rw [subtractCountLoop_eq b hb (r * 10 + d) (r * 10 + d) (le_refl _)]
    simp only
    rw [ih (q * 10 + (r * 10 + d) / b) ((r * 10 + d) % b) (Nat.mod_lt _ hb)]
    have key : b * (q * 10 + (r * 10 + d) / b) + (r * 10 + d) % b =
        (b * q + r) * 10 + d := by
      calc b * (q * 10 + (r * 10 + d) / b) + (r * 10 + d) % b
          = b * (q * 10) + (b * ((r * 10 + d) / b) + (r * 10 + d) % b) := by
            ring
        _ = b * (q * 10) + (r * 10 + d) := by rw [Nat.div_add_mod]
        _ = (b * q + r) * 10 + d := by ring
    rw [key]

theorem foldr_digits_ofDigits :
    ∀ l : List ℕ, l.foldr (fun d v => v * 10 + d) 0 = Nat.ofDigits 10 l := by
  intro l
  induction l with
  | nil => simp [Nat.ofDigits]
  | cons d l ih =>
    rw [List.foldr_cons, ih, Nat.ofDigits_cons]
    ring

theorem foldl_reverse_digits (a : ℕ) :
    (decimalDigits a).reverse.foldl (fun v d => v * 10 + d) 0 = a := by
  rw [decimalDigits_eq_digits, List.foldl_reverse]
  have h := foldr_digits_ofDigits (Nat.digits 10 a)
  simp only at h ⊢
  rw [h, Nat.ofDigits_digits]

/-- C10: for all canonical non-negative decimal strings `a` and `b` with
`b ≠ "0"`, `divideNumbers(a, b)` is exact Euclidean division — both the BigInt
fast path and the string-arithmetic fallback return the pair `[q, r]` with
`a = b·q + r` and `0 ≤ r < b`, and the two paths agree. -/
theorem divideNumbers_euclidean (a b : ℕ) (hb : b ≠ 0) :
    divideNumbersBig a b = stringDivideNumbers a b ∧
    ∃ q r, divideNumbersBig a b = some (q, r) ∧ a = b * q + r ∧ r < b := by
  have hb' : 0 < b := by omega
  constructor
  · unfold divideNumbersBig stringDivideNumbers stringDivideLoop
    rw [if_neg hb, if_neg hb]
    rw [stringDivideLoop_inv b hb' _ 0 0 hb']
    rw [Nat.mul_zero, Nat.add_zero, foldl_reverse_digits]
  · refine ⟨a / b, a % b, ?_, ?_, Nat.mod_lt _ hb'⟩
    · unfold divideNumbersBig
      rw [if_neg hb]
    · exact (Nat.div_add_mod a b).symm

/-- Witness for C10 at `a = 1000`, `b = 7`. -/
theorem divideNumbers_euclidean_witness :
    (7 : ℕ) ≠ 0 ∧ (divideNumbersBig 1000 7 = stringDivideNumbers 1000 7 ∧
      ∃ q r, divideNumbersBig 1000 7 = some (q, r) ∧ 1000 = 7 * q + r ∧ r < 7) :=
  ⟨by norm_num, divideNumbers_euclidean 1000 7 (by norm_num)⟩

/-! ## Candidate generators (C3, C8)
(`generate6kCandidates`, src/src/services/primeHybrid.optimized.mjs;
`sieveWheel30`'s candidate enumeration, the interactive front-end script;
`Wheel210.generateCandidates`, src/src/services/wheel210.optimized.mjs) -/

/-- Main loop of `generate6kCandidates`: for `k = k₀, k₀+1, …` yield `6k-1`
(when `≥ start` and `> 3`) and `6k+1` (when `≥ start` and `≤ end`), breaking
as soon as `6k-1 > end`. -/
def gen6kLoop (s e : ℕ) : ℕ → ℕ → List ℕ
  | 0, _ => []
  | fuel + 1, k =>
    if e < 6 * k - 1 then []
    else
      (if s ≤ 6 * k - 1 ∧ 3 < 6 * k - 1 then [6 * k - 1] else []) ++
      (if s ≤ 6 * k + 1 ∧ 6 * k + 1 ≤ e then [6 * k + 1] else []) ++
      gen6kLoop s e fuel (k + 1)

/-- `generate6kCandidates(start, end)` (primeHybrid.optimized.mjs): yields 2
and 3 when in range, then the 6k±1 values from
`k = max(1, ⌈(start-1)/6⌉)`. -/
def generate6kCandidates (s e : ℕ) : List ℕ :=
  (if s ≤ 2 ∧ 2 ≤ e then [2] else []) ++
  (if s ≤ 3 ∧ 3 ≤ e then [3] else []) ++
  gen6kLoop s e (e + 1) (max 1 ((s - 1 + 5) / 6))

/-- `wheel30Pattern` (sieveWheel30): the residues mod 30 coprime to 30. -/
def wheel30Pattern : List ℕ := [1, 7, 11, 13, 17, 19, 23, 29]

/-- The candidate enumeration of `sieveWheel30`: for every `base` with
`base * 30 ≤ n`, the values `base * 30 + offset` with `offset` in the wheel
pattern, skipping candidates `≤ 5` (`continue`) and stopping a row at the
first candidate `> n` (`break`; offsets ascend, so this equals the filter). -/
def wheel30Candidates (n : ℕ) : List ℕ :=
  (List.range (n / 30 + 1)).flatMap (fun base =>
    (wheel30Pattern.filter
      (fun off => 5 < 30 * base + off ∧ 30 * base + off ≤ n)).map
      (fun off => 30 * base + off))

/-- Generation loop of `Wheel210.generateCandidates`: `current = base +
SPOKES[pos]`; break when `current > end`; yield when `current ≥ start`;
advance `pos` cyclically, adding 210 to `base` on wrap-around. -/
def wheel210Loop (s e : ℕ) : ℕ → ℕ → ℕ → List ℕ
  | 0, _, _ => []
  | fuel + 1, base, pos =>
    if e < base + SPOKES.getD pos 0 then []
    else
      (if s ≤ base + SPOKES.getD pos 0 then [base + SPOKES.getD pos 0] else []) ++
      (if pos + 1 < 48 then wheel210Loop s e fuel base (pos + 1)
       else wheel210Loop s e fuel (base + 210) 0)

/-- `Wheel210.generateCandidates(start, end)` (wheel210.optimized.mjs lines
41-85): yields the small primes 2, 3, 5, 7, 11 lying in `[start, end]`,
returns if `end < 13`, and otherwise walks the spokes from `(base, pos) =
(0, 0)` when `start < 13`, or from `base = ⌊start/210⌋·210` and the first
spoke position with `base + SPOKES[pos] ≥ start` when `start ≥ 13`. -/
def wheel210Candidates (s e : ℕ) : List ℕ :=
  ([2, 3, 5, 7, 11].filter (fun p => s ≤ p ∧ p ≤ e)) ++
  (if e < 13 then []
   else if s < 13 then wheel210Loop s e (e + 2) 0 0
   else wheel210Loop s e (e + 2) (s / 210 * 210)
     (SPOKES.findIdx (fun sp => s ≤ s / 210 * 210 + sp)))

/-- `primesInRangeWheel210` (wheel210.optimized.mjs lines 228-238): filter the
wheel-210 candidates through `isPrimeOptimized`. -/
def primesInRangeWheel210 (s e : ℕ) : List ℕ :=
  (wheel210Candidates s e).filter (fun c => isPrimeOptimized c)

theorem spokes_getD_bounds :
    ∀ i < 48, 1 ≤ SPOKES.getD i 0 ∧ SPOKES.getD i 0 ≤ 209 := by decide

theorem spokes_getD_mem : ∀ i < 48, SPOKES.getD i 0 ∈ SPOKES := by decide

theorem spokes_strict :
    ∀ i < 47, SPOKES.getD i 0 < SPOKES.getD (i + 1) 0 := by decide

theorem spokes_succ_min :
    ∀ i < 47, ∀ r ∈ SPOKES, SPOKES.getD i 0 < r → SPOKES.getD (i + 1) 0 ≤ r := by
  decide

theorem spokes_getD_47 : SPOKES.getD 47 0 = 209 := rfl

theorem zero_not_mem_spokes : (0 : ℕ) ∉ SPOKES := by decide

set_option maxRecDepth 4000 in
theorem mem_spokes_of_residues :
    ∀ r ∈ List.range 210, ¬(r % 2 = 0 ∨ r % 3 = 0 ∨ r % 5 = 0 ∨ r % 7 = 0) →
      r ∈ SPOKES := by decide

set_option maxRecDepth 4000 in
theorem mem_wheel30Pattern_of_residues :
    ∀ r ∈ List.range 30, ¬(r % 2 = 0 ∨ r % 3 = 0 ∨ r % 5 = 0) →
      r ∈ wheel30Pattern := by decide

/-- The 6k±1 loop reaches every wheel value above its entry point. -/
theorem gen6kLoop_mem (s e : ℕ) :
    ∀ fuel k m, 1 ≤ k → (m % 6 = 1 ∨ m % 6 = 5) → 6 * k - 1 ≤ m →
      s ≤ m → 3 < m → m ≤ e → (m + 1) / 6 + 1 - k ≤ fuel →
      m ∈ gen6kLoop s e fuel k := by
  intro fuel
  induction fuel with
  | zero =>
    intro k m hk hw hkm hs h3 he hf
    exfalso
    omega
  | succ fuel ih =>
    intro k m hk hw hkm hs h3 he hf
    rw [gen6kLoop, if_neg (by omega : ¬ e < 6 * k - 1)]
    by_cases hhit : k = (m + 1) / 6
    · subst hhit
      rcases hw with h1 | h5
      · refine List.mem_append.mpr (Or.inl (List.mem_append.mpr (Or.inr ?_)))
        rw [if_pos (by omega)]
        have : 6 * ((m + 1) / 6) + 1 = m := by omega
        rw [this]
        exact List.mem_singleton_self m
      · refine List.mem_append.mpr (Or.inl (List.mem_append.mpr (Or.inl ?_)))
        rw [if_pos (by omega)]
        have : 6 * ((m + 1) / 6) - 1 = m := by omega
        rw [this]
        exact List.mem_singleton_self m
    · have hklt : k < (m + 1) / 6 := by omega
      refine List.mem_append.mpr (Or.inr ?_)
      exact ih (k + 1) m (by omega) hw (by omega) hs h3 he (by omega)

/-- Every element of the 6k±1 loop is at least `6k - 1`, and the loop output
is strictly increasing. -/
theorem gen6kLoop_pairwise (s e : ℕ) :
    ∀ fuel k, 1 ≤ k →
      (gen6kLoop s e fuel k).Pairwise (· < ·) ∧
      ∀ x ∈ gen6kLoop s e fuel k, 6 * k - 1 ≤ x := by
  intro fuel
  induction fuel with
  | zero =>
    intro k hk
    simp [gen6kLoop]
  | succ fuel ih =>
    intro k hk
    rw [gen6kLoop]
    by_cases hbr : e < 6 * k - 1
    · rw [if_pos hbr]
      simp
    · rw [if_neg hbr]
      obtain ⟨ihp, ihb⟩ := ih (k + 1) (by omega)
      have hA : ∀ x ∈ (if s ≤ 6 * k - 1 ∧ 3 < 6 * k - 1 then
          [6 * k - 1] else []), x = 6 * k - 1 := by
        intro x hx
        split at hx
        · simpa using hx
        · simp at hx
      have hB : ∀ x ∈ (if s ≤ 6 * k + 1 ∧ 6 * k + 1 ≤ e then
          [6 * k + 1] else []), x = 6 * k + 1 := by
        intro x hx
        split at hx
        · simpa using hx
        · simp at hx
      constructor
      · rw [List.pairwise_append]
        refine ⟨?_, ihp, ?_⟩
        · rw [List.pairwise_append]
          refine ⟨by split <;> simp, by split <;> simp, ?_⟩
          intro a ha b hb
          have := hA a ha
          have := hB b hb
          omega
        · intro a ha b hb
          have := ihb b hb
          rcases List.mem_append.mp ha with ha' | ha'
          · have := hA a ha'
            omega
          · have := hB a ha'
            omega
      · intro x hx
        rcases List.mem_append.mp hx with hx' | hx'
        · rcases List.mem_append.mp hx' with hx'' | hx''
          · have := hA x hx''
            omega
          · have := hB x hx''
            omega
        · have := ihb x hx'
          omega

/-- The wheel-210 loop reaches every wheel point between its entry point and
`end`. -/
theorem wheel210Loop_mem (s e : ℕ) :
    ∀ fuel base pos m, pos < 48 → 210 ∣ base →
      base + SPOKES.getD pos 0 ≤ m → m ≤ e → s ≤ m →
      m % 210 ∈ SPOKES → e + 2 - (base + SPOKES.getD pos 0) ≤ fuel →
      m ∈ wheel210Loop s e fuel base pos := by
  intro fuel
  induction fuel with
  | zero =>
    intro base pos m hpos hdvd hcm hme hs hsp hf
    exfalso
    omega
  | succ fuel ih =>
    intro base pos m hpos hdvd hcm hme hs hsp hf
    obtain ⟨B, rfl⟩ := hdvd
    obtain ⟨hsp1, hsp209⟩ := spokes_getD_bounds pos hpos
    rw [wheel210Loop, if_neg (by omega : ¬ e < 210 * B + SPOKES.getD pos 0)]
    by_cases hhit : 210 * B + SPOKES.getD pos 0 = m
    · refine List.mem_append.mpr (Or.inl ?_)
      rw [if_pos (by omega), hhit]
      exact List.mem_singleton_self m
    · refine List.mem_append.mpr (Or.inr ?_)
      have hdm := Nat.div_add_mod m 210
      have hmlt : m % 210 < 210 := Nat.mod_lt _ (by norm_num)
      obtain ⟨hr1, hr209⟩ := spokes_bounds _ hsp
      by_cases hwrap : pos + 1 < 48
      · rw [if_pos hwrap]
        obtain ⟨hn1, hn209⟩ := spokes_getD_bounds (pos + 1) hwrap
        have hnext : 210 * B + SPOKES.getD (pos + 1) 0 ≤ m := by
          by_cases hsame : m ≤ 210 * B + 209
          · have hq : m / 210 = B := by omega
            have hgt : SPOKES.getD pos 0 < m % 210 := by omega
            have := spokes_succ_min pos (by omega) (m % 210) hsp hgt
            omega
          · omega
        have hstrict := spokes_strict pos (by omega)
        exact ih (210 * B) (pos + 1) m hwrap ⟨B, rfl⟩ hnext hme hs hsp (by omega)
      · rw [if_neg hwrap]
        have hpos47 : pos = 47 := by omega
        subst hpos47
        rw [spokes_getD_47] at hcm hhit hf
        have hne210 : m ≠ 210 * B + 210 := by
          intro hmeq
          have : m % 210 = 0 := by omega
          rw [this] at hsp
          exact zero_not_mem_spokes hsp
        have hnext : 210 * B + 210 + SPOKES.getD 0 0 ≤ m := by
          rw [show SPOKES.getD 0 0 = 1 from rfl]
          omega
        refine ih (210 * B + 210) 0 m (by omega) ⟨B + 1, by ring⟩ hnext hme hs hsp ?_
        rw [show SPOKES.getD 0 0 = 1 from rfl] at *
        omega

/-- The wheel-210 loop output is strictly increasing, with all elements at or
above the entry point. -/
theorem wheel210Loop_pairwise (s e : ℕ) :
    ∀ fuel base pos, pos < 48 →
      (wheel210Loop s e fuel base pos).Pairwise (· < ·) ∧
      ∀ x ∈ wheel210Loop s e fuel base pos, base + SPOKES.getD pos 0 ≤ x := by
  intro fuel
  induction fuel with
  | zero =>
    intro base pos hpos
    simp [wheel210Loop]
  | succ fuel ih =>
    intro base pos hpos
    rw [wheel210Loop]
    by_cases hbr : e < base + SPOKES.getD pos 0
    · rw [if_pos hbr]
      simp
    · rw [if_neg hbr]
      obtain ⟨hsp1, hsp209⟩ := spokes_getD_bounds pos hpos
      have hA : ∀ x ∈ (if s ≤ base + SPOKES.getD pos 0 then
          [base + SPOKES.getD pos 0] else []), x = base + SPOKES.getD pos 0 := by
        intro x hx
        split at hx
        · simpa using hx
        · simp at hx
      by_cases hwrap : pos + 1 < 48
      · rw [if_pos hwrap]
        obtain ⟨ihp, ihb⟩ := ih base (pos + 1) hwrap
        have hstrict := spokes_strict pos (by omega)
        constructor
        · rw [List.pairwise_append]
          refine ⟨by split <;> simp, ihp, ?_⟩
          intro a ha b hb
          have := hA a ha
          have := ihb b hb
          omega
        · intro x hx
          rcases List.mem_append.mp hx with hx' | hx'
          · have := hA x hx'
            omega
          · have := ihb x hx'
            omega
      · rw [if_neg hwrap]
        have hpos47 : pos = 47 := by omega
        subst hpos47
        obtain ⟨ihp, ihb⟩ := ih (base + 210) 0 (by omega)
        constructor
        · rw [List.pairwise_append]
          refine ⟨by split <;> simp, ihp, ?_⟩
          intro a ha b hb
          have := hA a ha
          have := ihb b hb
          rw [spokes_getD_47] at *
          rw [show SPOKES.getD 0 0 = 1 from rfl] at *
          omega
        · intro x hx
          rcases List.mem_append.mp hx with hx' | hx'
          · have := hA x hx'
            omega
          · have := ihb x hx'
            rw [spokes_getD_47]
            rw [show SPOKES.getD 0 0 = 1 from rfl] at *
            omega

theorem prime_not_divisible {p q : ℕ} (hp : Nat.Prime p) (hq : 2 ≤ q)
    (hne : q ≠ p) : p % q ≠ 0 := by
  intro h
  rcases hp.eq_one_or_self_of_dvd q (Nat.dvd_of_mod_eq_zero h) with h' | h' <;>
    omega

theorem prime_mod_six {p : ℕ} (hp : Nat.Prime p) (h3 : 3 < p) :
    p % 6 = 1 ∨ p % 6 = 5 := by
  have h2 := prime_not_divisible hp (le_refl 2) (by omega)
  have h3' := prime_not_divisible hp (by omega : 2 ≤ 3) (by omega)
  omega

/-- C3: candidate completeness (no false negatives): every true prime `p` with
`wheelBase < p ≤ limit` appears in the candidate sequence of each wheel
variant — `generate6kCandidates(3, limit)` (mod-6, primeHybrid.optimized.mjs),
the candidate enumeration of `sieveWheel30(limit)` (mod-30), and
`Wheel210.generateCandidates(7, limit)` (mod-210). -/
theorem generateCandidates_complete (p limit : ℕ) (hp : Nat.Prime p) :
    (3 < p → p ≤ limit → p ∈ generate6kCandidates 3 limit) ∧
    (5 < p → p ≤ limit → p ∈ wheel30Candidates limit) ∧
    (7 < p → p ≤ limit → p ∈ wheel210Candidates 7 limit) := by
  refine ⟨?_, ?_, ?_⟩
  · intro h3 hle
    have hw := prime_mod_six hp h3
    have h5 : 5 ≤ p := by omega
    unfold generate6kCandidates
    refine List.mem_append.mpr (Or.inr ?_)
    have hk0 : max 1 ((3 - 1 + 5) / 6) = 1 := by norm_num
    rw [hk0]
    exact gen6kLoop_mem 3 limit (limit + 1) 1 p (le_refl 1) hw (by omega)
      (by omega) (by omega) hle (by omega)
  · intro h5 hle
    have h2 := prime_not_divisible hp (le_refl 2) (by omega)
    have h3' := prime_not_divisible hp (by omega : 2 ≤ 3) (by omega)
    have h5' := prime_not_divisible hp (by omega : 2 ≤ 5) (by omega)
    have hdp := Nat.div_add_mod p 30
    have hr : p % 30 ∈ wheel30Pattern := by
      refine mem_wheel30Pattern_of_residues (p % 30)
        (List.mem_range.mpr (Nat.mod_lt _ (by norm_num))) ?_
      have e2 : p % 30 % 2 = p % 2 := Nat.mod_mod_of_dvd p (by norm_num)
      have e3 : p % 30 % 3 = p % 3 := Nat.mod_mod_of_dvd p (by norm_num)
      have e5 : p % 30 % 5 = p % 5 := Nat.mod_mod_of_dvd p (by norm_num)
      omega
    unfold wheel30Candidates
    refine List.mem_flatMap.mpr ⟨p / 30, ?_, ?_⟩
    · refine List.mem_range.mpr ?_
      have hdd : p / 30 ≤ limit / 30 := Nat.div_le_div_right hle
      omega
    · refine List.mem_map.mpr ⟨p % 30, ?_, by omega⟩
      refine List.mem_filter.mpr ⟨hr, ?_⟩
      simp only [decide_eq_true_eq]
      omega
  · intro h7 hle
    have h2 := prime_not_divisible hp (le_refl 2) (by omega)
    have h3' := prime_not_divisible hp (by omega : 2 ≤ 3) (by omega)
    have h5' := prime_not_divisible hp (by omega : 2 ≤ 5) (by omega)
    have h7' := prime_not_divisible hp (by omega : 2 ≤ 7) (by omega)
    unfold wheel210Candidates
    by_cases h11 : p = 11
    · refine List.mem_append.mpr (Or.inl ?_)
      refine List.mem_filter.mpr ⟨by rw [h11]; decide, ?_⟩
      simp only [decide_eq_true_eq]
      omega
    · have h13 : 13 ≤ p := by omega
      refine List.mem_append.mpr (Or.inr ?_)
      rw [if_neg (by omega : ¬ limit < 13), if_pos (by norm_num : (7 : ℕ) < 13)]
      refine wheel210Loop_mem 7 limit (limit + 2) 0 0 p (by norm_num)
        ⟨0, rfl⟩ (by rw [show SPOKES.getD 0 0 = 1 from rfl]; omega) hle
        (by omega) ?_ (by rw [show SPOKES.getD 0 0 = 1 from rfl]; omega)
      refine mem_spokes_of_residues (p % 210)
        (List.mem_range.mpr (Nat.mod_lt _ (by norm_num))) ?_
      have e2 : p % 210 % 2 = p % 2 := Nat.mod_mod_of_dvd p (by norm_num)
      have e3 : p % 210 % 3 = p % 3 := Nat.mod_mod_of_dvd p (by norm_num)
      have e5 : p % 210 % 5 = p % 5 := Nat.mod_mod_of_dvd p (by norm_num)
      have e7 : p % 210 % 7 = p % 7 := Nat.mod_mod_of_dvd p (by norm_num)
      omega

/-- Witness for C3 at `p = 11`, `limit = 30`. -/
theorem generateCandidates_complete_witness :
    Nat.Prime 11 ∧ 11 ∈ generate6kCandidates 3 30 ∧
      11 ∈ wheel30Candidates 30 ∧ 11 ∈ wheel210Candidates 7 30 :=
  ⟨by norm_num,
    (generateCandidates_complete 11 30 (by norm_num)).1 (by norm_num) (by norm_num),
    (generateCandidates_complete 11 30 (by norm_num)).2.1 (by norm_num) (by norm_num),
    (generateCandidates_complete 11 30 (by norm_num)).2.2 (by norm_num) (by norm_num)⟩

/-- C8 counterexample: `Wheel210.generateCandidates(2, 20)` yields 11 twice —
once in the small-prime prefix and once as the spoke 11 of rotation 0 — so the
sequence is neither strictly increasing nor duplicate-free, and
`primesInRangeWheel210(2, 20)` keeps both copies of 11. -/
theorem wheel210Candidates_duplicate_eleven :
    wheel210Candidates 2 20 = [2, 3, 5, 7, 11, 11, 13, 17, 19] ∧
    ¬ (wheel210Candidates 2 20).Pairwise (· < ·) ∧
    (primesInRangeWheel210 2 20).count 11 = 2 := by
  refine ⟨by decide, by decide, by decide⟩

/-- C8 (amended): the mod-6 candidate sequences are strictly increasing (hence
duplicate-free) for every range; the wheel-210 sequence is strictly increasing
when `start ≥ 12`, while for `start ≤ 11 ≤ 13 ≤ end` the explicit small-prime
prefix and the wheel spokes both emit 11. -/
theorem candidates_strict_increase_amended (s e : ℕ) :
    (generate6kCandidates s e).Pairwise (· < ·) ∧
    (12 ≤ s → (wheel210Candidates s e).Pairwise (· < ·)) := by
  constructor
  · unfold generate6kCandidates
    have hk1 : 1 ≤ max 1 ((s - 1 + 5) / 6) := le_max_left _ _
    obtain ⟨hlp, hlb⟩ := gen6kLoop_pairwise s e (e + 1) _ hk1
    have hA : ∀ x ∈ (if s ≤ 2 ∧ 2 ≤ e then [2] else []), x = 2 := by
      intro x hx
      split at hx
      · simpa using hx
      · simp at hx
    have hB : ∀ x ∈ (if s ≤ 3 ∧ 3 ≤ e then [3] else []), x = 3 := by
      intro x hx
      split at hx
      · simpa using hx
      · simp at hx
    rw [List.pairwise_append]
    refine ⟨?_, hlp, ?_⟩
    · rw [List.pairwise_append]
      refine ⟨by split <;> simp, by split <;> simp, ?_⟩
      intro a ha b hb
      have := hA a ha
      have := hB b hb
      omega
    · intro a ha b hb
      have hbl := hlb b hb
      rcases List.mem_append.mp ha with ha' | ha'
      · have := hA a ha'
        omega
      · have := hB a ha'
        omega
  · intro h12
    unfold wheel210Candidates
    have hpre : ([2, 3, 5, 7, 11].filter
        (fun p => decide (s ≤ p ∧ p ≤ e))) = [] := by
      rw [List.filter_eq_nil_iff]
      intro a ha
      fin_cases ha <;> simp <;> omega
    rw [hpre, List.nil_append]
    by_cases he13 : e < 13
    · rw [if_pos he13]
      exact List.Pairwise.nil
    · rw [if_neg he13]
      by_cases hs13 : s < 13
      · rw [if_pos hs13]
        exact (wheel210Loop_pairwise s e (e + 2) 0 0 (by norm_num)).1
      · rw [if_neg hs13]
        have hpos : SPOKES.findIdx
            (fun sp => decide (s ≤ s / 210 * 210 + sp)) < 48 := by
          have hx : ∃ x ∈ SPOKES,
              (fun sp => decide (s ≤ s / 210 * 210 + sp)) x = true := by
            refine ⟨209, by decide, ?_⟩
            simp only [decide_eq_true_eq]
            have := Nat.div_add_mod s 210
            have : s % 210 < 210 := Nat.mod_lt _ (by norm_num)
            omega
          have hlt := List.findIdx_lt_length_of_exists hx
          exact (show SPOKES.length = 48 from rfl) ▸ hlt
        exact (wheel210Loop_pairwise s e (e + 2) _ _ hpos).1

/-- Witness for the amended C8 at ranges `[2, 30]` (mod-6) and `[13, 40]`
(wheel-210). -/
theorem candidates_strict_increase_amended_witness :
    (generate6kCandidates 2 30).Pairwise (· < ·) ∧
    12 ≤ 13 ∧ (wheel210Candidates 13 40).Pairwise (· < ·) :=
  ⟨(candidates_strict_increase_amended 2 30).1, by norm_num,
    (candidates_strict_increase_amended 13 40).2 (by norm_num)⟩

end FMPrime
